import Mathlib

/-!
Verification development for the finance-dashboard transaction pipeline.

Shallow embedding of the ETL core of the repository:
* `src/etl/load_transactions.py` — merchant normalization, amount parsing,
  duplicate-sequence assignment, transaction identity, the DuckDB MERGE
  into the `transactions` table, and the per-file ingestion loop;
* `src/etl/build_rollups.py` — the `transactions_with_category` view
  (override / rule / base-category resolution) and the `monthly_cashflow`
  rollup with its transfer filter.

Strings are modelled as `List Char`; SQL `NULL` as `Option`; machine floats
as `ℚ`; external parsers (pandas date parsing, Python `float`) and the
regex engine (`regexp_matches` / `re.search`) as function parameters.
-/

namespace FinDash

/-- Strings are modelled as lists of characters. -/
abbrev Str := List Char

/-- ASCII lowercase letter or digit: the character class `[a-z0-9]` used by
`normalize_merchant`'s regex. -/
def isAlnumLower (c : Char) : Bool :=
  (97 ≤ c.toNat && c.toNat ≤ 122) || (48 ≤ c.toNat && c.toNat ≤ 57)

/-- ASCII lowercasing of one character (model of Python `str.lower` and SQL
`LOWER` on the ASCII range). -/
def lowerChar (c : Char) : Char :=
  if 65 ≤ c.toNat && c.toNat ≤ 90 then Char.ofNat (c.toNat + 32) else c

/-- Lowercase a whole string. -/
def lowerStr (s : Str) : Str := s.map lowerChar

/-- Model of `re.sub(r"[^a-z0-9]+", " ", t)`: every maximal run of
non-alphanumeric characters becomes a single space.  The boolean flag records
whether the previous character was part of such a run (its space already
emitted). -/
def subAux : Bool → Str → Str
  | _, [] => []
  | sp, c :: s =>
    if isAlnumLower c then c :: subAux false s
    else if sp then subAux true s
    else ' ' :: subAux true s

/-- Replace each maximal non-alphanumeric run by one space. -/
def subNonAlnum (s : Str) : Str := subAux false s

/-- Accumulator pass of `words`: `acc` holds the reversed current chunk. -/
def wordsAux : Str → Str → List Str
  | [], acc => if acc = [] then [] else [acc.reverse]
  | c :: s, acc =>
    if c = ' ' then
      if acc = [] then wordsAux s [] else acc.reverse :: wordsAux s []
    else wordsAux s (c :: acc)

/-- Model of Python `str.split()` restricted to the space separator (the only
whitespace that can remain after `subNonAlnum`): the maximal space-free
chunks, empties dropped. -/
def words (s : Str) : List Str := wordsAux s []

/-- Model of `" ".join(toks)`. -/
def joinSp : List Str → Str
  | [] => []
  | [w] => w
  | w :: rest => w ++ ' ' :: joinSp rest

/-- Model of Python `str.strip()` for the strings at hand (only plain spaces
can occur at the ends). -/
def stripSp (s : Str) : Str :=
  ((s.dropWhile (fun c => c = ' ')).reverse.dropWhile (fun c => c = ' ')).reverse

/-- The stopword set of `load_transactions.py` (`STOPWORDS`). -/
def STOPWORDS : List Str :=
  ["inc".toList, "inc.".toList, "llc".toList, "llc.".toList, "co".toList,
   "co.".toList, "corp".toList, "corp.".toList, "ltd".toList, "ltd.".toList,
   "the".toList, "store".toList, "stores".toList, "company".toList,
   "companies".toList]

/-- Token list of `normalize_merchant`: split the substituted lowercase text
and drop stopwords (`[w for w in t.split() if w not in STOPWORDS]`). -/
def normTokens (s : Str) : List Str :=
  (words (subNonAlnum (lowerStr s))).filter (fun w => decide (w ∉ STOPWORDS))

/-- `normalize_merchant` of `load_transactions.py` on an actual string:
lowercase, replace non-alphanumeric runs by spaces, drop stopword tokens,
join with single spaces, strip. -/
def normalize_merchant (s : Str) : Str :=
  stripSp (joinSp (normTokens s))

/-- A Python value passed to `normalize_merchant`: either a `str` or any
non-string value (the `isinstance(text, str)` guard). -/
inductive PyStrVal where
  | mkStr (s : Str)
  | nonstr
deriving DecidableEq

/-- `normalize_merchant` including the non-string guard: non-strings map to
the empty string. -/
def normalize_merchant_py : PyStrVal → Str
  | .mkStr s => normalize_merchant s
  | .nonstr => []

/-- Whitespace for Python `str.strip()`. -/
def isWs (c : Char) : Bool := c = ' ' || c = '\t' || c = '\n' || c = '\r'

/-- Python `str.strip()`. -/
def stripWs (s : Str) : Str :=
  ((s.dropWhile isWs).reverse.dropWhile isWs).reverse

/-- The floor of a rational, computed on its reduced fraction
(`Int.fdiv` is floor division and the denominator is positive). -/
def floorQ (q : ℚ) : ℤ := q.num.fdiv q.den

/-- Python 3 `round` to an integer: round half to even. -/
def pyRound (q : ℚ) : ℤ :=
  let n := floorQ (q + 1 / 2)
  if q + 1 / 2 = (n : ℚ) then (if n % 2 = 0 then n else n - 1) else n

/-- DuckDB `ROUND` on a double: round half away from zero. -/
def sqlRound (q : ℚ) : ℤ :=
  if 0 ≤ q then floorQ (q + 1 / 2) else -floorQ (-q + 1 / 2)

/-- A value found in the raw `amount` column: missing (`NaN`), a string, or
a number already parsed by pandas. -/
inductive AmtVal where
  | na
  | txt (s : Str)
  | num (q : ℚ)
deriving DecidableEq

/-- The string cleanup of `to_int_cents`:
`x.replace("$","").replace(",","").strip()`. -/
def cleanAmount (s : Str) : Str :=
  stripWs (s.filter (fun c => !(c = '$' || c = ',')))

/-- `to_int_cents` of `load_transactions.py`.  `pfl` models Python `float`
on the cleaned string (`none` = `ValueError`); any failure yields `0`. -/
def to_int_cents (pfl : Str → Option ℚ) : AmtVal → ℤ
  | .na => 0
  | .num q => pyRound (q * 100)
  | .txt s =>
    match pfl (cleanAmount s) with
    | some q => pyRound (q * 100)
    | none => 0

/-- The grouping key of `compute_dup_seq`:
`(date, account_id, amount_cents, merchant_norm)`. -/
abbrev GroupKey := Str × Str × ℤ × Str

/-- `compute_dup_seq`: per row, `groupby(key).cumcount() + 1` — one plus the
number of earlier rows with the same key. -/
def compute_dup_seq (ks : List GroupKey) : List ℕ :=
  ks.enum.map (fun p => (ks.take p.1).count p.2 + 1)

/-- Fuelled digit expansion (the fuel only bounds the recursion depth; any
fuel above the digit count gives the decimal rendering). -/
def natCharsAux : ℕ → ℕ → Str
  | 0, _ => []
  | fuel + 1, n =>
    if n < 10 then [Nat.digitChar n]
    else natCharsAux fuel (n / 10) ++ [Nat.digitChar (n % 10)]

/-- Decimal rendering of a natural number (Python `str` on a nonnegative
int). -/
def natChars (n : ℕ) : Str := natCharsAux (n + 1) n

/-- Decimal rendering of an integer (Python `str` on an int). -/
def intChars (z : ℤ) : Str :=
  if z < 0 then '-' :: natChars z.natAbs else natChars z.toNat

/-- The identity key string of `make_txn_id`:
`f"{date}|{account_id}|{amount_cents}|{merchant_norm}|{dup_seq}"`. -/
def mkKeyStr (date acct : Str) (cents : ℤ) (merch : Str) (seq : ℕ) : Str :=
  date ++ '|' :: acct ++ '|' :: intChars cents ++ '|' :: merch ++ '|' :: natChars seq

/-- `make_txn_id`: the hash of the identity key string.  The hash function
(`hashlib.sha256 … hexdigest`) is a parameter of the model. -/
def make_txn_id (hash : Str → Str) (date acct : Str) (cents : ℤ) (merch : Str)
    (seq : ℕ) : Str :=
  hash (mkKeyStr date acct cents merch seq)

/-- `_parse_is_transfer` on one cell: strip, lowercase, accept
`1/true/t/yes/y`; anything else (missing included) is `false`. -/
def parse_is_transfer : Option Str → Bool
  | none => false
  | some s =>
    decide (stripWs (lowerStr s) ∈
      ["1".toList, "true".toList, "t".toList, "yes".toList, "y".toList])

/-- A canonical transaction row as staged and stored by
`load_transactions.py` (`out_cols` order). -/
structure Txn where
  txn_id : Str
  date : Str
  account_id : Str
  amount_cents : ℤ
  amount : Option ℚ
  description : Option Str
  merchant_norm : Str
  category : Option Str
  memo : Option Str
  tags : Option Str
  is_transfer : Bool
deriving DecidableEq

/-- One raw CSV row after header renaming: the canonical columns, loosely
typed (`none` = missing cell / `NaN`). -/
structure RawTxRow where
  date : Str
  description : Option Str
  amount : AmtVal
  account_id : Str
  category : Option Str
  memo : Option Str
  tags : Option Str
  is_transfer : Option Str
deriving DecidableEq

/-- The external functions the loader relies on: the identity hash, pandas
`to_datetime(..., errors="coerce")`, Python `float`, and pandas
`to_numeric(..., errors="coerce")`. -/
structure LoaderEnv where
  hash : Str → Str
  parseDate : Str → Option Str
  pyFloat : Str → Option ℚ
  toNumeric : Str → Option ℚ

/-- `df["description"].astype(str)`: a missing description renders as the
literal string `"nan"`. -/
def descStr (r : RawTxRow) : Str :=
  match r.description with
  | some s => s
  | none => "nan".toList

/-- Date-parsable rows paired with their parsed date: models
`df["date"] = to_datetime(df["date"], errors="coerce")` followed by
`df = df[~df["date"].isna()]`. -/
def goodRows (env : LoaderEnv) (rows : List RawTxRow) : List (Str × RawTxRow) :=
  rows.filterMap (fun r => (env.parseDate r.date).map (fun d => (d, r)))

/-- The `compute_dup_seq` grouping key of one date-parsed row. -/
def stageKey (env : LoaderEnv) (p : Str × RawTxRow) : GroupKey :=
  (p.1, p.2.account_id, to_int_cents env.pyFloat p.2.amount,
   normalize_merchant (descStr p.2))

/-- `df["amount"] = pd.to_numeric(df["amount"], errors="coerce")`. -/
def amountNumeric (env : LoaderEnv) (r : RawTxRow) : Option ℚ :=
  match r.amount with
  | .na => none
  | .num q => some q
  | .txt s => env.toNumeric s

/-- The staged row built from one date-parsed raw row at batch position `i`
(`ks` are the grouping keys of the whole date-parsed batch). -/
def stageRow (env : LoaderEnv) (ks : List GroupKey) (i : ℕ)
    (p : Str × RawTxRow) : Txn :=
  let cents := to_int_cents env.pyFloat p.2.amount
  let merch := normalize_merchant (descStr p.2)
  let seq := (ks.take i).count (stageKey env p) + 1
  { txn_id := make_txn_id env.hash p.1 p.2.account_id cents merch seq
    date := p.1
    account_id := p.2.account_id
    amount_cents := cents
    amount := amountNumeric env p.2
    description := p.2.description
    merchant_norm := merch
    category := p.2.category
    memo := p.2.memo
    tags := p.2.tags
    is_transfer := parse_is_transfer p.2.is_transfer }

/-- The per-file canonicalization pipeline of `load_transactions.main`:
drop rows with unparsable dates, then derive `amount_cents`, `amount`,
`merchant_norm`, `dup_seq` and `txn_id` column-wise. -/
def processFile (env : LoaderEnv) (rows : List RawTxRow) : List Txn :=
  let g := goodRows env rows
  let ks := g.map (stageKey env)
  g.enum.map (fun p => stageRow env ks p.1 p.2)

/-- The ledger store: the `transactions` table as a list of rows keyed by
`txn_id`. -/
abbrev Store := List Txn

/-- One step of the DuckDB `MERGE INTO transactions`: if a row with the
incoming `txn_id` exists, overwrite its fields with the incoming values,
otherwise insert the incoming row. -/
def upsert (st : Store) (r : Txn) : Store :=
  if st.any (fun e => decide (e.txn_id = r.txn_id)) then
    st.map (fun e => if e.txn_id = r.txn_id then r else e)
  else st ++ [r]

/-- The whole-batch `MERGE`: every staged row upserted, in batch order. -/
def mergeBatch (st : Store) (b : List Txn) : Store :=
  b.foldl upsert st

/-- Lookup by primary key in the store. -/
def findTxn (st : Store) (k : Str) : Option Txn :=
  st.find? (fun e => decide (e.txn_id = k))

/-- The primary-key column of the store. -/
def storeIds (st : Store) : List Str :=
  st.map (fun e => e.txn_id)

/-- The last row of a batch carrying a given key (the value that wins a
within-batch collision). -/
def lastRowFor (b : List Txn) (k : Str) : Option Txn :=
  b.reverse.find? (fun r => decide (r.txn_id = k))

/-- The alias table of `flexible_rename` (`mapping_candidates`), in source
order. -/
def mappingCandidates : List (Str × List Str) :=
  [("date".toList, ["date".toList, "Date".toList, "posted".toList,
      "Transaction Date".toList]),
   ("description".toList, ["description".toList, "Description".toList,
      "merchant".toList, "Payee".toList, "Name".toList]),
   ("amount".toList, ["amount".toList, "Amount".toList, "amount_usd".toList,
      "Amount (USD)".toList, "Amount USD".toList]),
   ("account_id".toList, ["account_id".toList, "Account".toList,
      "Account Id".toList, "AccountId".toList, "Acct".toList]),
   ("category".toList, ["category".toList, "Category".toList]),
   ("memo".toList, ["memo".toList, "Memo".toList, "Notes".toList,
      "Note".toList]),
   ("tags".toList, ["tags".toList, "Tags".toList]),
   ("is_transfer".toList, ["is_transfer".toList, "IsTransfer".toList,
      "Transfer".toList])]

/-- `lower_cols[lc]`: the dict `{c.lower(): c for c in df.columns}` maps a
lowered name to the last column bearing it. -/
def lowerColLookup (hs : List Str) (lc : Str) : Option Str :=
  hs.reverse.find? (fun h => decide (lowerStr h = lc))

/-- For one target field, the first candidate alias found among the headers
(exact match first, then case-insensitive), returning the original header
name. -/
def findColFor (hs : List Str) : List Str → Option Str
  | [] => none
  | c :: rest =>
    if c ∈ hs then some c
    else
      match lowerColLookup hs (lowerStr c) with
      | some orig => some orig
      | none => findColFor hs rest

/-- The rename map of `flexible_rename`: original header → canonical field
name. -/
def colmap (hs : List Str) : List (Str × Str) :=
  mappingCandidates.filterMap
    (fun tc => (findColFor hs tc.2).map (fun orig => (orig, tc.1)))

/-- Rename one header (`df.rename(columns=colmap)`); dict assignment means
a later target wins when the same original header was claimed twice. -/
def renameHeader (hs : List Str) (h : Str) : Str :=
  match (colmap hs).reverse.find? (fun p => decide (p.1 = h)) with
  | some p => p.2
  | none => h

/-- The header set after `flexible_rename`. -/
def renamedHeaders (hs : List Str) : List Str :=
  hs.map (renameHeader hs)

/-- `req = {"date","description","amount","account_id"}`. -/
def requiredCols : List Str :=
  ["date".toList, "description".toList, "amount".toList, "account_id".toList]

/-- `missing = req - set(df.columns)` is nonempty after renaming. -/
def missingRequired (hs : List Str) : Bool :=
  !(requiredCols.all (fun c => decide (c ∈ renamedHeaders hs)))

/-- One source CSV file: its headers and its (renamed) rows. -/
structure SrcFile where
  headers : List Str
  rows : List RawTxRow

/-- The file loop of `load_transactions.main`: files in order; a file whose
required columns are missing raises `ValueError`, which is uncaught and
stops the run (`true` in the result means the run errored); otherwise the
file's staged batch is merged immediately. -/
def runFiles (env : LoaderEnv) (st : Store) : List SrcFile → Store × Bool
  | [] => (st, false)
  | f :: rest =>
    if missingRequired f.headers then (st, true)
    else runFiles env (mergeBatch st (processFile env f.rows)) rest

/-- A raw row of the `category_rules` table. -/
structure RuleRaw where
  match_type : Option Str
  pattern : Option Str
  category : Option Str
  priority : Option ℤ
deriving DecidableEq

/-- A rule row after the `rules` CTE of `transactions_with_category`. -/
structure RuleC where
  match_type : Str
  pattern : Option Str
  category : Str
  prio : ℤ
deriving DecidableEq

/-- The `rules` CTE: keep rows with a non-blank category; normalize
`match_type` (`COALESCE(LOWER(match_type),'contains')`), trim and lowercase
the pattern, default the priority to `9999`. -/
def rulesCTE (rs : List RuleRaw) : List RuleC :=
  rs.filterMap (fun r =>
    match r.category with
    | none => none
    | some c =>
      if stripSp c = [] then none
      else
        some { match_type :=
                 match r.match_type with
                 | some m => lowerStr m
                 | none => "contains".toList
               pattern := r.pattern.map (fun p => stripSp (lowerStr p))
               category := c
               prio := r.priority.getD 9999 })

/-- Does `p` occur at the start of `s`? -/
def isPrefixS : Str → Str → Bool
  | [], _ => true
  | _ :: _, [] => false
  | c :: p, d :: s => (c = d) && isPrefixS p s

/-- Does `p` occur anywhere in `s`?  Models `POSITION(p IN s) > 0`. -/
def containsSub (p : Str) : Str → Bool
  | [] => isPrefixS p []
  | c :: s => isPrefixS p (c :: s) || containsSub p s

/-- `desc_src` of the view:
`LOWER(COALESCE(t.description, t.memo, ''))` — the description-like columns
of the `transactions` table built by the loader. -/
def descSrc (t : Txn) : Str :=
  lowerStr
    (match t.description, t.memo with
     | some d, _ => d
     | none, some m => m
     | none, none => [])

/-- The rule join condition of the `hits` CTE:
`(match_type = 'regex' AND regexp_matches(desc_src, pattern)) OR
 (match_type = 'contains' AND POSITION(pattern IN desc_src) > 0)`.
`rm` models `regexp_matches`; a `NULL` pattern matches nothing. -/
def ruleMatches (rm : Str → Str → Bool) (d : Str) (r : RuleC) : Bool :=
  match r.pattern with
  | none => false
  | some p =>
    (decide (r.match_type = "regex".toList) && rm d p) ||
    (decide (r.match_type = "contains".toList) && containsSub p d)

/-- Binary lexicographic comparison of strings (DuckDB default collation for
`ORDER BY` on TEXT). -/
def strLt : Str → Str → Bool
  | [], [] => false
  | [], _ :: _ => true
  | _ :: _, [] => false
  | c :: s, d :: t => if c < d then true else if d < c then false else strLt s t

/-- `LENGTH(r.pattern)` for the ordering (patterns of matching rules are
never `NULL`). -/
def patLen (r : RuleC) : ℕ := (r.pattern.getD []).length

/-- The `ORDER BY r.prio, LENGTH(r.pattern) DESC, r.category` ordering of
the `hits` CTE: does `a` sort strictly before `b`? -/
def ruleBefore (a b : RuleC) : Bool :=
  decide (a.prio < b.prio) ||
  (decide (a.prio = b.prio) &&
    (decide (patLen b < patLen a) ||
     (decide (patLen a = patLen b) && strLt a.category b.category)))

/-- First minimal element of a list under a strict comparison: the element
`ROW_NUMBER() OVER (ORDER BY …) = 1` picks. -/
def pickMin (lt : α → α → Bool) (l : List α) : Option α :=
  l.foldl
    (fun acc x =>
      match acc with
      | none => some x
      | some m => if lt x m then some x else acc)
    none

/-- `h.rule_category` where `rn = 1`: the category of the best-sorted
matching rule, if any rule matches. -/
def ruleResult (rm : Str → Str → Bool) (rules : List RuleRaw) (t : Txn) :
    Option Str :=
  (pickMin ruleBefore ((rulesCTE rules).filter (ruleMatches rm (descSrc t)))).map
    (fun r => r.category)

/-- A raw row of the `category_overrides` table. -/
structure OverrideRow where
  active : Option Bool
  date : Option Str
  description_regex : Option Str
  amount : Option ℚ
  category : Option Str
deriving DecidableEq

/-- The override join condition of the `ov` CTE:
`o.active = TRUE AND regexp_matches(desc_src, o.description_regex) AND
 (o.date IS NULL OR b.date = o.date) AND
 CAST(ROUND(o.amount * 100) AS BIGINT) = b.amount_cents`.
SQL three-valued logic: a `NULL` regex or a `NULL` amount fails the
condition. -/
def overrideMatches (rm : Str → Str → Bool) (t : Txn) (o : OverrideRow) :
    Bool :=
  decide (o.active = some true) &&
  (match o.description_regex with
   | some re => rm (descSrc t) re
   | none => false) &&
  (match o.date with
   | none => true
   | some d => decide (t.date = d)) &&
  (match o.amount with
   | none => false
   | some a => decide (sqlRound (a * 100) = t.amount_cents))

/-- `ORDER BY o.category` with DuckDB's default `NULLS LAST`. -/
def ovBefore (a b : OverrideRow) : Bool :=
  match a.category, b.category with
  | some x, some y => strLt x y
  | some _, none => true
  | none, _ => false

/-- `o.override_category` of the joined `overrides_one` row (`rn = 1`), if
any override matches; a `NULL` category on the winning override coalesces
away. -/
def overrideResult (rm : Str → Str → Bool) (ovs : List OverrideRow)
    (t : Txn) : Option Str :=
  (pickMin ovBefore (ovs.filter (overrideMatches rm t))).bind
    (fun o => o.category)

/-- The `category` column of `transactions_with_category`:
`COALESCE(o.override_category, h.rule_category, b.base_category,
'Uncategorized')`. -/
def twcCategory (rm : Str → Str → Bool) (rules : List RuleRaw)
    (ovs : List OverrideRow) (t : Txn) : Str :=
  match overrideResult rm ovs t with
  | some c => c
  | none =>
    match ruleResult rm rules t with
    | some c => c
    | none =>
      match t.category with
      | some c => c
      | none => "Uncategorized".toList

/-- A row of the `category_dim` table. -/
structure DimRow where
  category : Option Str
  is_transfer : Option Bool
deriving DecidableEq

/-- The `category_dim` table: its rows, and whether it has an `is_transfer`
column (when it does not, `monthly_cashflow` applies no transfer filter). -/
structure DimTable where
  hasTransferCol : Bool
  rows : List DimRow

/-- The columns `monthly_cashflow` reads from
`transactions_with_category`. -/
structure CashTx where
  date : Str
  amount_cents : ℤ
  category : Str
deriving DecidableEq

/-- `strftime('%Y-%m', date)` on an ISO `YYYY-MM-DD` date string. -/
def monthOf (d : Str) : Str := d.take 7

/-- `CAST(amount_cents/100.0 AS DOUBLE)`. -/
def amtOf (r : CashTx) : ℚ := (r.amount_cents : ℚ) / 100

/-- The `t` CTE of `monthly_cashflow`: `LEFT JOIN category_dim` on equal
category, then — when the dimension has an `is_transfer` column —
`WHERE COALESCE(cd.is_transfer, FALSE) = FALSE`. -/
def cashJoined (dim : DimTable) (txs : List CashTx) : List (Str × ℚ) :=
  txs.flatMap (fun r =>
    let ms := dim.rows.filter (fun d2 => decide (d2.category = some r.category))
    let joined : List (Option Bool) :=
      if ms.isEmpty then [none] else ms.map (fun d2 => d2.is_transfer)
    let kept :=
      if dim.hasTransferCol then joined.filter (fun ib => !(ib.getD false))
      else joined
    kept.map (fun _ => (monthOf r.date, amtOf r)))

/-- `SUM(CASE WHEN amt > 0 THEN amt ELSE 0 END)` for one month group. -/
def incomeFor (m : Str) (l : List (Str × ℚ)) : ℚ :=
  ((l.filter (fun p => decide (p.1 = m))).map
    (fun p => if 0 < p.2 then p.2 else 0)).sum

/-- `SUM(CASE WHEN amt < 0 THEN amt ELSE 0 END)` for one month group. -/
def spendingFor (m : Str) (l : List (Str × ℚ)) : ℚ :=
  ((l.filter (fun p => decide (p.1 = m))).map
    (fun p => if p.2 < 0 then p.2 else 0)).sum

/-- `SUM(amt)` for one month group. -/
def netFor (m : Str) (l : List (Str × ℚ)) : ℚ :=
  ((l.filter (fun p => decide (p.1 = m))).map (fun p => p.2)).sum

/-- The `monthly_cashflow` totals of one month.  The query names
`category_dim` unconditionally in its `LEFT JOIN`, so a missing dimension
table makes the build fail — modelled as `none`. -/
def cashflowTotals (dim? : Option DimTable) (txs : List CashTx) (m : Str) :
    Option (ℚ × ℚ × ℚ) :=
  dim?.map (fun dim =>
    let l := cashJoined dim txs
    (incomeFor m l, spendingFor m l, netFor m l))

/-! ### Concrete fixtures used by witnesses and counterexamples -/

/-- A regex-engine stand-in that matches everything. -/
def rmTrue : Str → Str → Bool := fun _ _ => true

/-- A regex-engine stand-in that matches nothing. -/
def rmFalse : Str → Str → Bool := fun _ _ => false

/-- The example transaction of the spec: a −$4.50 Starbucks charge. -/
def txC : Txn :=
  { txn_id := "id1".toList
    date := "2024-03-01".toList
    account_id := "CHK".toList
    amount_cents := -450
    amount := some (-9 / 2)
    description := some ("STARBUCKS STORE #123".toList)
    merchant_norm := "starbucks 123".toList
    category := some ("Dining".toList)
    memo := none
    tags := none
    is_transfer := false }

/-- A manual override fixture: category `Client`, any description, any date,
amount −4.50. -/
def ovClient : OverrideRow :=
  { active := some true
    date := none
    description_regex := some (".*".toList)
    amount := some (-9 / 2)
    category := some ("Client".toList) }

/-- A `contains starbucks` rule fixture with priority 1, category `A`. -/
def ruleA : RuleRaw :=
  { match_type := some ("contains".toList)
    pattern := some ("starbucks".toList)
    category := some ("A".toList)
    priority := some 1 }

/-- A `contains store` rule fixture with priority 2, category `B`. -/
def ruleB : RuleRaw :=
  { match_type := some ("contains".toList)
    pattern := some ("store".toList)
    category := some ("B".toList)
    priority := some 2 }

/-- `ruleA` as the `rules` CTE normalizes it. -/
def cteRuleA : RuleC :=
  { match_type := "contains".toList
    pattern := some ("starbucks".toList)
    category := "A".toList
    prio := 1 }

/-- An active override with a match-all regex, no date constraint and no
amount value. -/
def ovNoAmount : OverrideRow :=
  { active := some true
    date := none
    description_regex := some (".*".toList)
    amount := none
    category := some ("X".toList) }

/-- A `contains "the star"` rule fixture (category `C`, priority 1). -/
def ruleTheStar : RuleRaw :=
  { match_type := some ("contains".toList)
    pattern := some ("the star".toList)
    category := some ("C".toList)
    priority := some 1 }

/-- `ruleTheStar` as the `rules` CTE normalizes it. -/
def cteTheStar : RuleC :=
  { match_type := "contains".toList
    pattern := some ("the star".toList)
    category := "C".toList
    prio := 1 }

/-- A transaction whose description is `THE STARBUCKS`; its
`merchant_norm`, as the loader computes it, drops the stopword `the`. -/
def txStar : Txn :=
  { txn_id := "id2".toList
    date := "2024-03-02".toList
    account_id := "CHK".toList
    amount_cents := -100
    amount := some (-1)
    description := some ("THE STARBUCKS".toList)
    merchant_norm := normalize_merchant ("THE STARBUCKS".toList)
    category := none
    memo := none
    tags := none
    is_transfer := false }

/-- Decimal value of a digit string (proof-side inverse of `natChars`). -/
def charsVal (s : Str) : ℕ :=
  s.foldl (fun a c => a * 10 + (c.toNat - 48)) 0

/-- A grouping key shared by two identical same-day charges. -/
def kdup : GroupKey :=
  ("2024-03-01".toList, "CHK".toList, -450, "starbucks 123".toList)

/-- A concrete loader environment: identity hash, a date parser accepting
only `2024-03-01`, and string-to-number parsers that always fail. -/
def envFix : LoaderEnv :=
  { hash := id
    parseDate := fun s => if s = "2024-03-01".toList then some s else none
    pyFloat := fun _ => none
    toNumeric := fun _ => none }

/-- A raw row with a parsable date and a non-numeric amount string. -/
def rowBadAmt : RawTxRow :=
  { date := "2024-03-01".toList
    description := some ("STARBUCKS".toList)
    amount := AmtVal.txt ("abc".toList)
    account_id := "CHK".toList
    category := none
    memo := none
    tags := none
    is_transfer := none }

/-- A file whose headers cover all required fields (via aliases). -/
def goodFile : SrcFile :=
  { headers := ["Date".toList, "Description".toList, "Amount".toList,
      "Account".toList]
    rows := [rowBadAmt] }

/-- A file with no header matching `account_id`. -/
def badFile : SrcFile :=
  { headers := ["Date".toList, "Description".toList, "Amount".toList]
    rows := [rowBadAmt] }

/-- A cashflow row with an ordinary category. -/
def txCash : CashTx :=
  { date := "2024-03-05".toList
    amount_cents := -450
    category := "Dining".toList }

/-- A dimension row flagging `Transfers` as a transfer category. -/
def dimT : DimRow :=
  { category := some ("Transfers".toList)
    is_transfer := some true }

/-- A dimension table with an `is_transfer` column and the single
`Transfers` row. -/
def dimTable1 : DimTable :=
  { hasTransferCol := true
    rows := [dimT] }

/-- A cashflow row in the `Transfers` category. -/
def txTransfer : CashTx :=
  { date := "2024-03-05".toList
    amount_cents := 1000
    category := "Transfers".toList }

/-!  The remaining sections are theorems about the definitions above. -/

section PickMinLemmas

variable {α : Type _} (lt : α → α → Bool)

theorem pickMin_step_some (lt : α → α → Bool) (l : List α) (m : α) :
    ∃ m2, l.foldl
      (fun acc x =>
        match acc with
        | none => some x
        | some m1 => if lt x m1 then some x else acc)
      (some m) = some m2 := by
  induction l generalizing m with
  | nil => exact ⟨m, rfl⟩
  | cons y t ih =>
    simp only [List.foldl_cons]
    by_cases h : lt y m = true
    · simpa [h] using ih y
    · simpa [h] using ih m

theorem pickMin_isSome (lt : α → α → Bool) (l : List α) (hl : l ≠ []) :
    ∃ x, pickMin lt l = some x := by
  cases l with
  | nil => exact absurd rfl hl
  | cons y t =>
    simpa [pickMin] using pickMin_step_some lt t y

theorem pickMin_mem_aux (lt : α → α → Bool) (l : List α) :
    ∀ acc x, l.foldl
      (fun acc x =>
        match acc with
        | none => some x
        | some m1 => if lt x m1 then some x else acc)
      acc = some x → acc = some x ∨ x ∈ l := by
  induction l with
  | nil => intro acc x h; exact Or.inl h
  | cons y t ih =>
    intro acc x h
    simp only [List.foldl_cons] at h
    rcases acc with _ | m
    · rcases ih (some y) x h with h1 | h1
      · exact Or.inr (by simp [Option.some_inj.mp h1])
      · exact Or.inr (List.mem_cons_of_mem _ h1)
    · by_cases hy : lt y m = true
      · simp only [hy, if_pos] at h
        rcases ih (some y) x h with h1 | h1
        · exact Or.inr (by simp [Option.some_inj.mp h1])
        · exact Or.inr (List.mem_cons_of_mem _ h1)
      · simp only [hy] at h
        rcases ih (some m) x h with h1 | h1
        · exact Or.inl h1
        · exact Or.inr (List.mem_cons_of_mem _ h1)

theorem pickMin_mem (lt : α → α → Bool) (l : List α) (x : α)
    (h : pickMin lt l = some x) : x ∈ l := by
  rcases pickMin_mem_aux lt l none x h with h1 | h1
  · exact absurd h1 (by simp)
  · exact h1

theorem pickMin_min_aux (lt : α → α → Bool)
    (hasym : ∀ a b, lt a b = true → lt b a = false) (x : α) (l : List α) :
    ∀ acc, (acc = none ∨ ∃ m, acc = some m ∧ (m = x ∨ lt x m = true)) →
      (∀ y ∈ l, y = x ∨ lt x y = true) →
      (x ∈ l ∨ acc = some x) →
      l.foldl
        (fun acc x =>
          match acc with
          | none => some x
          | some m1 => if lt x m1 then some x else acc)
        acc = some x := by
  have hirr : lt x x = false := by
    by_cases h : lt x x = true
    · exact absurd (hasym x x h) (by simp [h])
    · simpa using h
  induction l with
  | nil =>
    intro acc _ _ hin
    rcases hin with hin | hin
    · exact absurd hin (List.not_mem_nil x)
    · simpa using hin
  | cons y t ih =>
    intro acc hacc hall hin
    simp only [List.foldl_cons]
    have hy : y = x ∨ lt x y = true := hall y (List.mem_cons_self y t)
    have hall2 : ∀ z ∈ t, z = x ∨ lt x z = true :=
      fun z hz => hall z (List.mem_cons_of_mem _ hz)
    have hyinv : y = x ∨ lt x y = true → (y = x ∨ lt x y = true) := id
    rcases acc with _ | m
    · refine ih (some y) (Or.inr ⟨y, rfl, hy.imp id id⟩) hall2 ?_
      rcases hy with rfl | hy
      · exact Or.inr rfl
      · rcases hin with hin | hin
        · rcases List.mem_cons.mp hin with rfl | hin2
          · simp [hirr] at hy
          · exact Or.inl hin2
        · exact absurd hin (by simp)
    · have hm : m = x ∨ lt x m = true := by
        rcases hacc with hacc | ⟨m1, hm1, hm⟩
        · exact absurd hacc (by simp)
        · rcases Option.some_inj.mp hm1 with rfl
          exact hm
      by_cases hlt : lt y m = true
      · simp only [hlt, if_pos]
        refine ih (some y) (Or.inr ⟨y, rfl, hy.imp id id⟩) hall2 ?_
        rcases hy with rfl | hy2
        · exact Or.inr rfl
        · rcases hin with hin | hin
          · rcases List.mem_cons.mp hin with rfl | hin2
            · simp [hirr] at hy2
            · exact Or.inl hin2
          · rcases hm with rfl | hm
            · exact absurd hlt (by simp [hasym _ _ hy2])
            · rcases Option.some_inj.mp hin with rfl
              exact absurd hlt (by simp [hasym _ _ hy2])
      · have hlt2 : lt y m = false := by simpa using hlt
        simp only [hlt2, Bool.false_eq_true, if_false]
        refine ih (some m) (Or.inr ⟨m, rfl, hm⟩) hall2 ?_
        rcases hin with hin | hin
        · rcases List.mem_cons.mp hin with rfl | hin2
          · rcases hm with rfl | hm
            · exact Or.inr rfl
            · exact absurd hlt (by simp [hm])
          · exact Or.inl hin2
        · exact Or.inr hin

theorem pickMin_eq_of_min (lt : α → α → Bool)
    (hasym : ∀ a b, lt a b = true → lt b a = false) (l : List α) (x : α)
    (hx : x ∈ l) (hmin : ∀ y ∈ l, y = x ∨ lt x y = true) :
    pickMin lt l = some x :=
  pickMin_min_aux lt hasym x l none (Or.inl rfl) hmin (Or.inl hx)

end PickMinLemmas

theorem strLt_asymm : ∀ s t : Str, strLt s t = true → strLt t s = false := by
  intro s
  induction s with
  | nil => intro t _; cases t <;> simp [strLt]
  | cons c s ih =>
    intro t h
    cases t with
    | nil => simp [strLt] at h
    | cons d t =>
      simp only [strLt] at h ⊢
      by_cases hcd : c < d
      · have hdc : ¬d < c := lt_asymm hcd
        simp [hdc, hcd]
      · by_cases hdc : d < c
        · simp [hcd, hdc] at h
        · simp only [hcd, hdc, if_false] at h ⊢
          exact ih t h

theorem ruleBefore_asymm :
    ∀ a b : RuleC, ruleBefore a b = true → ruleBefore b a = false := by
  intro a b h
  have h2 : ¬ruleBefore b a = true := by
    intro h2
    simp only [ruleBefore, Bool.or_eq_true, Bool.and_eq_true,
      decide_eq_true_eq] at h h2
    rcases h with hp | ⟨he, hrest⟩
    · rcases h2 with hp2 | ⟨he2, _⟩ <;> omega
    · rcases hrest with hl | ⟨hle, hs⟩
      · rcases h2 with hp2 | ⟨he2, h2b⟩
        · omega
        · rcases h2b with hl2 | ⟨hle2, _⟩ <;> omega
      · rcases h2 with hp2 | ⟨he2, h2b⟩
        · omega
        · rcases h2b with hl2 | ⟨hle2, hs2⟩
          · omega
          · exact absurd hs2 (by simp [strLt_asymm _ _ hs])
  cases hb : ruleBefore b a
  · rfl
  · exact absurd hb h2

theorem ovBefore_asymm :
    ∀ a b : OverrideRow, ovBefore a b = true → ovBefore b a = false := by
  intro a b h
  rcases ha : a.category with _ | x <;> rcases hb : b.category with _ | y <;>
    simp [ovBefore, ha, hb] at h ⊢
  exact strLt_asymm x y h

/-- C1: the final resolved category is the first non-null of override
result, rule result, base category and the literal `Uncategorized`: when any
active override matches (all matching ones carrying category `X`), the
resolution returns `X` regardless of rules and base category; when no
override matches, a matching rule's category outranks the base category,
which outranks the literal fallback — so the result is never null. -/
theorem c1_category_precedence (rm : Str → Str → Bool) (rules : List RuleRaw)
    (ovs : List OverrideRow) (t : Txn) (X : Str) :
    ((∃ o ∈ ovs, overrideMatches rm t o = true) →
     (∀ o ∈ ovs, overrideMatches rm t o = true → o.category = some X) →
     twcCategory rm rules ovs t = X)
    ∧ ((∀ o ∈ ovs, overrideMatches rm t o = false) →
       twcCategory rm rules ovs t =
         (match ruleResult rm rules t, t.category with
          | some c, _ => c
          | none, some c => c
          | none, none => "Uncategorized".toList)) := by
  constructor
  · rintro ⟨o, ho, hom⟩ hall
    have hmemf : o ∈ ovs.filter (overrideMatches rm t) :=
      List.mem_filter.mpr ⟨ho, hom⟩
    obtain ⟨w, hw⟩ :=
      pickMin_isSome ovBefore (ovs.filter (overrideMatches rm t))
        (List.ne_nil_of_mem hmemf)
    have hwmem := pickMin_mem ovBefore _ w hw
    have hwf := List.mem_filter.mp hwmem
    have hcat : w.category = some X := hall w hwf.1 hwf.2
    simp [twcCategory, overrideResult, hw, hcat]
  · intro hnone
    have hfil : ovs.filter (overrideMatches rm t) = [] := by
      rw [List.filter_eq_nil_iff]
      intro o ho
      simp [hnone o ho]
    simp only [twcCategory, overrideResult, hfil, pickMin, List.foldl_nil,
      Option.none_bind]
    cases ruleResult rm rules t <;> cases t.category <;> rfl

/-- Witness for C1 at the spec's example: an override with category `Client`
and a rule with category `A` both match, and resolution returns `Client`. -/
theorem c1_category_precedence_witness :
    (∃ o ∈ [ovClient], overrideMatches rmTrue txC o = true) ∧
    (∀ o ∈ [ovClient], overrideMatches rmTrue txC o = true →
      o.category = some ("Client".toList)) ∧
    twcCategory rmTrue [ruleA] [ovClient] txC = "Client".toList :=
  ⟨by with_unfolding_all decide, by with_unfolding_all decide,
    (c1_category_precedence rmTrue [ruleA] [ovClient] txC
      ("Client".toList)).1 (by with_unfolding_all decide)
      (by with_unfolding_all decide)⟩

/-- C4: among matching rules exactly one winner is selected by ascending
priority, then descending pattern length, then ascending category
(`ruleBefore`); its category is returned, and no category when no rule
matches. -/
theorem c4_rule_winner (rm : Str → Str → Bool) (rules : List RuleRaw)
    (t : Txn) (r : RuleC) :
    ((∀ r' ∈ rulesCTE rules, ruleMatches rm (descSrc t) r' = false) →
      ruleResult rm rules t = none)
    ∧ (r ∈ rulesCTE rules → ruleMatches rm (descSrc t) r = true →
       (∀ r' ∈ rulesCTE rules, ruleMatches rm (descSrc t) r' = true →
         r' = r ∨ ruleBefore r r' = true) →
       ruleResult rm rules t = some r.category) := by
  constructor
  · intro hnone
    have hfil : (rulesCTE rules).filter (ruleMatches rm (descSrc t)) = [] := by
      rw [List.filter_eq_nil_iff]
      intro r' hr'
      simp [hnone r' hr']
    simp [ruleResult, hfil, pickMin]
  · intro hr hm hmin
    have hmemf : r ∈ (rulesCTE rules).filter (ruleMatches rm (descSrc t)) :=
      List.mem_filter.mpr ⟨hr, hm⟩
    have hpick :
        pickMin ruleBefore
          ((rulesCTE rules).filter (ruleMatches rm (descSrc t))) = some r := by
      refine pickMin_eq_of_min ruleBefore ruleBefore_asymm _ r hmemf ?_
      intro y hy
      have hyf := List.mem_filter.mp hy
      exact hmin y hyf.1 hyf.2
    simp [ruleResult, hpick]

/-- Witness for C4: two matching `contains` rules with priorities 1
(category `A`) and 2 (category `B`); the result is `A`. -/
theorem c4_rule_winner_witness :
    cteRuleA ∈ rulesCTE [ruleA, ruleB] ∧
    ruleMatches rmFalse (descSrc txC) cteRuleA = true ∧
    ruleResult rmFalse [ruleA, ruleB] txC = some ("A".toList) :=
  ⟨by decide, by decide,
    (c4_rule_winner rmFalse [ruleA, ruleB] txC cteRuleA).2 (by decide)
      (by decide) (by decide)⟩

/-- C5 counterexample: the claim states that an active override whose
regex matches, whose date is unset and whose amount is unset matches any
amount; on this concrete input all those conditions hold, yet the code's
join condition evaluates to false (SQL `NULL` amount fails
`ROUND(o.amount * 100) = amount_cents`). -/
theorem c5_counterexample :
    overrideMatches rmTrue txC ovNoAmount = false ∧
    ovNoAmount.active = some true ∧
    (∃ re, ovNoAmount.description_regex = some re ∧
      rmTrue (descSrc txC) re = true) ∧
    ovNoAmount.date = none ∧
    ovNoAmount.amount = none :=
  ⟨by decide, by decide, ⟨".*".toList, by decide, by decide⟩, by decide,
    by decide⟩

/-- C5 (amended): an override matches iff it is active, its regex matches
the description text, its date is unset or equal to the transaction's date,
and its amount is *set* and equals the transaction's amount in rounded
cents — an override with an unset amount never matches. -/
theorem c5_override_match_condition (rm : Str → Str → Bool) (t : Txn)
    (o : OverrideRow) :
    overrideMatches rm t o = true ↔
      (o.active = some true ∧
       (∃ re, o.description_regex = some re ∧ rm (descSrc t) re = true) ∧
       (o.date = none ∨ o.date = some t.date) ∧
       (∃ a, o.amount = some a ∧ sqlRound (a * 100) = t.amount_cents)) := by
  obtain ⟨act, dt, re, am, cat⟩ := o
  cases re <;> cases dt <;> cases am <;>
    simp [overrideMatches, Bool.and_eq_true, and_assoc,
      @eq_comm _ t.date]

/-- C6 counterexample: the `contains` rule with pattern `the star` matches
this transaction (the pattern is tested against the lowercased raw
description), although the pattern is not a substring of the transaction's
`merchant_norm` (`starbucks`, the stopword `the` dropped by
normalization) — so rule patterns are not tested against
`merchant_norm`. -/
theorem c6_counterexample :
    ruleMatches rmFalse (descSrc txStar) cteTheStar = true ∧
    containsSub (cteTheStar.pattern.getD []) txStar.merchant_norm = false ∧
    txStar.merchant_norm = "starbucks".toList :=
  ⟨by decide, by decide, by decide⟩

/-- Substring test agrees with `List.IsInfix`. -/
theorem isPrefixS_iff (p s : Str) : isPrefixS p s = true ↔ p <+: s := by
  induction p generalizing s with
  | nil => simp [isPrefixS]
  | cons c p ih =>
    cases s with
    | nil => simp [isPrefixS]
    | cons d s =>
      simp only [isPrefixS, Bool.and_eq_true, decide_eq_true_eq, ih,
        List.cons_prefix_cons]

/-- `containsSub` agrees with `List.IsInfix`. -/
theorem containsSub_iff (p s : Str) : containsSub p s = true ↔ p <:+: s := by
  induction s with
  | nil =>
    simp only [containsSub, isPrefixS_iff, List.prefix_nil, List.infix_nil]
  | cons c s ih =>
    simp only [containsSub, Bool.or_eq_true, isPrefixS_iff, ih,
      List.infix_cons_iff]

/-- C6 (amended): a candidate rule matches iff its pattern is non-null and
either the rule is a `regex` rule whose pattern search succeeds against the
lowercased coalesced description text (`desc_src`), or a `contains` rule
whose (trimmed, lowercased) pattern is a substring of that text; the text
is the description/memo coalesce, not `merchant_norm`. -/
theorem c6_rule_match_condition (rm : Str → Str → Bool) (t : Txn)
    (r : RuleC) :
    ruleMatches rm (descSrc t) r = true ↔
      (∃ p, r.pattern = some p ∧
        ((r.match_type = "regex".toList ∧ rm (descSrc t) p = true) ∨
         (r.match_type = "contains".toList ∧ p <:+: descSrc t))) := by
  cases hp : r.pattern with
  | none => simp [ruleMatches, hp]
  | some p =>
    simp [ruleMatches, hp, containsSub_iff, Bool.and_eq_true,
      Bool.or_eq_true]

theorem findTxn_map_ne (st : Store) (r : Txn) (k : Str)
    (hk : r.txn_id ≠ k) :
    findTxn (st.map (fun e => if e.txn_id = r.txn_id then r else e)) k =
      findTxn st k := by
  induction st with
  | nil => rfl
  | cons e t ih =>
    simp only [List.map_cons, findTxn, List.find?_cons] at ih ⊢
    by_cases he : e.txn_id = r.txn_id
    · simp only [he, if_pos]
      have h1 : (decide (r.txn_id = k)) = false := by simp [hk]
      have h2 : (decide (e.txn_id = k)) = false := by simp [he, hk]
      simp only [h1, h2]
      exact ih
    · simp only [he, if_neg, if_false]
      by_cases hek : e.txn_id = k
      · simp [hek]
      · simp only [decide_eq_false hek]
        exact ih

theorem findTxn_map_eq (st : Store) (r : Txn)
    (hany : ∃ e ∈ st, e.txn_id = r.txn_id) :
    findTxn (st.map (fun e => if e.txn_id = r.txn_id then r else e))
      r.txn_id = some r := by
  induction st with
  | nil => simp at hany
  | cons e t ih =>
    simp only [List.map_cons, findTxn, List.find?_cons]
    by_cases he : e.txn_id = r.txn_id
    · simp [he]
    · simp only [he, if_neg, if_false, decide_eq_false he]
      apply ih
      rcases hany with ⟨e2, he2, hid⟩
      rcases List.mem_cons.mp he2 with rfl | hmem
      · exact absurd hid he
      · exact ⟨e2, hmem, hid⟩

theorem findTxn_eq_none (st : Store) (k : Str)
    (hnone : ∀ e ∈ st, e.txn_id ≠ k) : findTxn st k = none := by
  rw [findTxn, List.find?_eq_none]
  intro e he
  simp [hnone e he]

theorem findTxn_upsert (st : Store) (r : Txn) (k : Str) :
    findTxn (upsert st r) k =
      if r.txn_id = k then some r else findTxn st k := by
  unfold upsert
  by_cases hany : st.any (fun e => decide (e.txn_id = r.txn_id)) = true
  · rw [if_pos hany]
    have hex : ∃ e ∈ st, e.txn_id = r.txn_id := by
      simpa using List.any_eq_true.mp hany
    by_cases hk : r.txn_id = k
    · subst hk
      rw [if_pos rfl]
      exact findTxn_map_eq st r hex
    · rw [if_neg hk]
      exact findTxn_map_ne st r k hk
  · rw [if_neg hany]
    have hnone : ∀ e ∈ st, e.txn_id ≠ r.txn_id := by
      intro e he
      by_contra hc
      exact hany (List.any_eq_true.mpr ⟨e, he, by simp [hc]⟩)
    rw [findTxn, List.find?_append]
    by_cases hk : r.txn_id = k
    · subst hk
      have h1 : findTxn st r.txn_id = none := findTxn_eq_none st _ hnone
      rw [findTxn] at h1
      simp [h1, if_pos rfl]
    · simp only [if_neg hk]
      have h2 : List.find? (fun e => decide (e.txn_id = k)) [r] = none := by
        simp [hk]
      rw [h2]
      simp [findTxn]

theorem storeIds_upsert (st : Store) (r : Txn) :
    storeIds (upsert st r) =
      if st.any (fun e => decide (e.txn_id = r.txn_id)) then storeIds st
      else storeIds st ++ [r.txn_id] := by
  unfold upsert
  by_cases hany : st.any (fun e => decide (e.txn_id = r.txn_id)) = true
  · rw [if_pos hany, if_pos hany, storeIds, List.map_map, storeIds]
    apply List.map_congr_left
    intro e _
    by_cases he : e.txn_id = r.txn_id <;> simp [he]
  · rw [if_neg hany, if_neg hany, storeIds, storeIds, List.map_append]
    rfl

theorem mem_storeIds (st : Store) (k : Str) :
    k ∈ storeIds st ↔ ∃ e ∈ st, e.txn_id = k := by
  simp [storeIds, List.mem_map, eq_comm]

theorem storeIds_upsert_superset (st : Store) (r : Txn) (k : Str)
    (h : k ∈ storeIds st) : k ∈ storeIds (upsert st r) := by
  rw [storeIds_upsert]
  by_cases hany : st.any (fun e => decide (e.txn_id = r.txn_id)) = true <;>
    simp [hany, h]

theorem mem_storeIds_upsert_self (st : Store) (r : Txn) :
    r.txn_id ∈ storeIds (upsert st r) := by
  rw [storeIds_upsert]
  by_cases hany : st.any (fun e => decide (e.txn_id = r.txn_id)) = true
  · rw [if_pos hany]
    have hex : ∃ e ∈ st, e.txn_id = r.txn_id := by
      simpa using List.any_eq_true.mp hany
    rcases hex with ⟨e, he, hid⟩
    exact (mem_storeIds st r.txn_id).mpr ⟨e, he, hid⟩
  · rw [if_neg hany]
    simp

theorem mem_storeIds_mergeBatch (st : Store) (b : List Txn) (k : Str)
    (h : k ∈ storeIds st) : k ∈ storeIds (mergeBatch st b) := by
  induction b generalizing st with
  | nil => exact h
  | cons r t ih => exact ih (upsert st r) (storeIds_upsert_superset st r k h)

theorem batch_mem_storeIds_mergeBatch (st : Store) (b : List Txn) :
    ∀ r ∈ b, r.txn_id ∈ storeIds (mergeBatch st b) := by
  induction b generalizing st with
  | nil => intro r hr; simp at hr
  | cons r0 t ih =>
    intro r hr
    rcases List.mem_cons.mp hr with rfl | hmem
    · exact mem_storeIds_mergeBatch (upsert st r) t r.txn_id
        (mem_storeIds_upsert_self st r)
    · exact ih (upsert st r0) r hmem

theorem storeIds_mergeBatch_stable (st : Store) (b : List Txn)
    (h : ∀ r ∈ b, r.txn_id ∈ storeIds st) :
    storeIds (mergeBatch st b) = storeIds st := by
  induction b generalizing st with
  | nil => rfl
  | cons r t ih =>
    have hr : r.txn_id ∈ storeIds st := h r (List.mem_cons_self r t)
    have hany : st.any (fun e => decide (e.txn_id = r.txn_id)) = true := by
      rcases (mem_storeIds st r.txn_id).mp hr with ⟨e, he, hid⟩
      exact List.any_eq_true.mpr ⟨e, he, by simp [hid]⟩
    have hids : storeIds (upsert st r) = storeIds st := by
      rw [storeIds_upsert, if_pos hany]
    calc storeIds (mergeBatch (upsert st r) t)
        = storeIds (upsert st r) := by
          apply ih
          intro r2 hr2
          rw [hids]
          exact h r2 (List.mem_cons_of_mem _ hr2)
      _ = storeIds st := hids

theorem findTxn_mergeBatch (st : Store) (b : List Txn) (k : Str) :
    findTxn (mergeBatch st b) k =
      match lastRowFor b k with
      | some r => some r
      | none => findTxn st k := by
  induction b generalizing st with
  | nil => rfl
  | cons r t ih =>
    show findTxn (mergeBatch (upsert st r) t) k = _
    rw [ih]
    have hlast : lastRowFor (r :: t) k =
        match lastRowFor t k with
        | some r2 => some r2
        | none => if r.txn_id = k then some r else none := by
      rw [lastRowFor, List.reverse_cons, List.find?_append]
      cases hl : lastRowFor t k with
      | some r2 =>
        rw [lastRowFor] at hl
        simp [hl]
      | none =>
        rw [lastRowFor] at hl
        simp only [hl, Option.none_orElse]
        by_cases hk : r.txn_id = k <;> simp [hk]
    rw [hlast]
    cases hl : lastRowFor t k with
    | some r2 => rfl
    | none =>
      simp only []
      rw [findTxn_upsert]
      by_cases hk : r.txn_id = k <;> simp [hk]

theorem storeIds_nodup_upsert (st : Store) (r : Txn)
    (h : (storeIds st).Nodup) : (storeIds (upsert st r)).Nodup := by
  rw [storeIds_upsert]
  by_cases hany : st.any (fun e => decide (e.txn_id = r.txn_id)) = true
  · rwa [if_pos hany]
  · rw [if_neg hany]
    have hnotmem : r.txn_id ∉ storeIds st := by
      intro hmem
      rcases (mem_storeIds st r.txn_id).mp hmem with ⟨e, he, hid⟩
      exact hany (List.any_eq_true.mpr ⟨e, he, by simp [hid]⟩)
    simpa [List.nodup_append] using ⟨h, hnotmem⟩

theorem storeIds_nodup_mergeBatch (st : Store) (b : List Txn)
    (h : (storeIds st).Nodup) : (storeIds (mergeBatch st b)).Nodup := by
  induction b generalizing st with
  | nil => exact h
  | cons r t ih => exact ih (upsert st r) (storeIds_nodup_upsert st r h)

theorem store_ext (s1 : Store) :
    ∀ s2 : Store, (storeIds s1).Nodup → storeIds s1 = storeIds s2 →
      (∀ k, findTxn s1 k = findTxn s2 k) → s1 = s2 := by
  induction s1 with
  | nil =>
    intro s2 _ hids _
    cases s2 with
    | nil => rfl
    | cons e2 t2 => simp [storeIds] at hids
  | cons e1 t1 ih =>
    intro s2 hnd hids hfind
    cases s2 with
    | nil => simp [storeIds] at hids
    | cons e2 t2 =>
      have hids2 : e1.txn_id = e2.txn_id ∧ storeIds t1 = storeIds t2 := by
        simpa [storeIds, List.map_cons, List.cons.injEq] using hids
      have hid12 : e1.txn_id = e2.txn_id := hids2.1
      have hidst : storeIds t1 = storeIds t2 := hids2.2
      have hhead : e1 = e2 := by
        have h1 := hfind e1.txn_id
        have hd1 : (decide (e1.txn_id = e1.txn_id)) = true := by simp
        have hd2 : (decide (e2.txn_id = e1.txn_id)) = true := by simp [hid12]
        rw [findTxn, findTxn, List.find?_cons, List.find?_cons, hd1, hd2] at h1
        exact Option.some_inj.mp h1
      subst hhead
      have hndc : e1.txn_id ∉ storeIds t1 ∧ (storeIds t1).Nodup :=
        List.nodup_cons.mp (show (e1.txn_id :: storeIds t1).Nodup from hnd)
      have hnotmem := hndc.1
      refine congrArg (e1 :: ·) (ih t2 hndc.2 hidst ?_)
      intro k
      by_cases hk : e1.txn_id = k
      · subst hk
        have h1 : findTxn t1 e1.txn_id = none := by
          apply findTxn_eq_none
          intro e he hc
          exact hnotmem ((mem_storeIds t1 e1.txn_id).mpr ⟨e, he, hc⟩)
        have h2 : findTxn t2 e1.txn_id = none := by
          apply findTxn_eq_none
          intro e he hc
          apply hnotmem
          rw [hidst]
          exact (mem_storeIds t2 e1.txn_id).mpr ⟨e, he, hc⟩
        rw [h1, h2]
      · have h1 := hfind k
        have hd : (decide (e1.txn_id = k)) = false := by simp [hk]
        rw [findTxn, findTxn, List.find?_cons, List.find?_cons, hd] at h1
        exact h1

/-- C2: merging an identical batch a second time leaves the ledger store
exactly as after the first merge: same rows, same order, hence the same row
count and no field drift. -/
theorem c2_merge_idempotent (st : Store) (b : List Txn)
    (hnd : (storeIds st).Nodup) :
    mergeBatch (mergeBatch st b) b = mergeBatch st b := by
  have hnd1 : (storeIds (mergeBatch st b)).Nodup :=
    storeIds_nodup_mergeBatch st b hnd
  apply store_ext
  · exact storeIds_nodup_mergeBatch (mergeBatch st b) b hnd1
  · exact storeIds_mergeBatch_stable (mergeBatch st b) b
      (batch_mem_storeIds_mergeBatch st b)
  · intro k
    rw [findTxn_mergeBatch, findTxn_mergeBatch]
    cases hl : lastRowFor b k with
    | some r => rfl
    | none => rfl

/-- Witness for C2 on a singleton batch over the empty store. -/
theorem c2_merge_idempotent_witness :
    (storeIds ([] : Store)).Nodup ∧
    mergeBatch (mergeBatch [] [txC]) [txC] = mergeBatch [] [txC] :=
  ⟨List.nodup_nil, c2_merge_idempotent [] [txC] List.nodup_nil⟩

theorem charsVal_append (s : Str) (c : Char) :
    charsVal (s ++ [c]) = charsVal s * 10 + (c.toNat - 48) := by
  simp [charsVal, List.foldl_append]

theorem digitChar_toNat (d : ℕ) (hd : d < 10) :
    (Nat.digitChar d).toNat = 48 + d := by
  interval_cases d <;> rfl

theorem natCharsAux_val : ∀ fuel n, n < fuel →
    charsVal (natCharsAux fuel n) = n := by
  intro fuel
  induction fuel with
  | zero => omega
  | succ fuel ih =>
    intro n hn
    rw [natCharsAux]
    by_cases h10 : n < 10
    · simp only [h10, if_pos]
      simp [charsVal, digitChar_toNat n h10]
    · simp only [h10, if_false]
      rw [charsVal_append, ih (n / 10) (by omega),
        digitChar_toNat (n % 10) (Nat.mod_lt _ (by omega))]
      omega

theorem natChars_inj : Function.Injective natChars := by
  intro m n h
  have hm := natCharsAux_val (m + 1) m (Nat.lt_succ_self m)
  have hn := natCharsAux_val (n + 1) n (Nat.lt_succ_self n)
  rw [natChars] at h
  rw [natChars] at h
  rw [← hm, ← hn, h]

theorem mkKeyStr_seq_inj (d a : Str) (c : ℤ) (m : Str) (s1 s2 : ℕ)
    (h : mkKeyStr d a c m s1 = mkKeyStr d a c m s2) : s1 = s2 := by
  have key : ∀ s : ℕ, mkKeyStr d a c m s =
      (d ++ '|' :: a ++ '|' :: intChars c ++ '|' :: m ++ ['|']) ++
        natChars s := by
    intro s
    simp [mkKeyStr, List.append_assoc]
  rw [key, key] at h
  exact natChars_inj (List.append_cancel_left h)

theorem compute_dup_seq_getElem? (ks : List GroupKey) (i : ℕ) (k : GroupKey)
    (hki : ks[i]? = some k) :
    (compute_dup_seq ks)[i]? = some ((ks.take i).count k + 1) := by
  simp [compute_dup_seq, List.getElem?_map, List.getElem?_enum, hki]

theorem count_take_lt (ks : List GroupKey) (i j : ℕ) (k : GroupKey)
    (hij : i < j) (hki : ks[i]? = some k) :
    (ks.take i).count k < (ks.take j).count k := by
  have hi : i < ks.length := by
    by_contra hc
    rw [List.getElem?_eq_none (by omega)] at hki
    exact Option.noConfusion hki
  have hival : ks[i] = k := by
    have := List.getElem?_eq_getElem hi
    rw [this] at hki
    exact Option.some_inj.mp hki
  have hadd : i + (j - i) = j := by omega
  have hsplit : ks.take j = ks.take i ++ ((ks.drop i).take (j - i)) := by
    conv_lhs => rw [← hadd]
    rw [List.take_add]
  have hdrop : ks.drop i = k :: ks.drop (i + 1) := by
    rw [List.drop_eq_getElem_cons hi, hival]
  rw [hsplit, List.count_append]
  obtain ⟨n, hn⟩ : ∃ n, j - i = n + 1 := ⟨j - i - 1, by omega⟩
  rw [hdrop, hn, List.take_succ_cons, List.count_cons_self]
  omega

/-- C3 (amended): within one batch, rows sharing an identical
`(date, account_id, amount_cents, merchant_norm)` tuple receive occurrence
indices `1, 2, 3, …` in original input row order (`cumcount() + 1`: one
plus the number of earlier rows with the same key), and because the index
participates in the identity key string the two rows obtain distinct
identities whenever the hash is injective. -/
theorem c3_occurrence_and_identity (hash : Str → Str)
    (hinj : Function.Injective hash) (ks : List GroupKey) (i j : ℕ)
    (k : GroupKey) (hij : i < j) (hki : ks[i]? = some k)
    (hkj : ks[j]? = some k) :
    (compute_dup_seq ks)[i]? = some ((ks.take i).count k + 1) ∧
    (compute_dup_seq ks)[j]? = some ((ks.take j).count k + 1) ∧
    (ks.take i).count k + 1 < (ks.take j).count k + 1 ∧
    make_txn_id hash k.1 k.2.1 k.2.2.1 k.2.2.2 ((ks.take i).count k + 1) ≠
      make_txn_id hash k.1 k.2.1 k.2.2.1 k.2.2.2
        ((ks.take j).count k + 1) := by
  have hcount := count_take_lt ks i j k hij hki
  refine ⟨compute_dup_seq_getElem? ks i k hki,
    compute_dup_seq_getElem? ks j k hkj, by omega, ?_⟩
  intro h
  have h2 := hinj h
  have h3 := mkKeyStr_seq_inj _ _ _ _ _ _ h2
  omega

/-- Witness for C3 (amended): two identical rows get occurrence indices 1
and 2 and distinct identity key strings. -/
theorem c3_occurrence_and_identity_witness :
    (0 : ℕ) < 1 ∧
    ([kdup, kdup] : List GroupKey)[0]? = some kdup ∧
    ([kdup, kdup] : List GroupKey)[1]? = some kdup ∧
    (compute_dup_seq [kdup, kdup])[0]? = some 1 ∧
    (compute_dup_seq [kdup, kdup])[1]? = some 2 ∧
    make_txn_id id kdup.1 kdup.2.1 kdup.2.2.1 kdup.2.2.2 1 ≠
      make_txn_id id kdup.1 kdup.2.1 kdup.2.2.1 kdup.2.2.2 2 := by
  have h := c3_occurrence_and_identity id Function.injective_id
    [kdup, kdup] 0 1 kdup (by decide) (by decide) (by decide)
  exact ⟨by decide, by decide, by decide, h.1, h.2.1, h.2.2.2⟩

/-- C3 counterexample: the claim as stated says the first of two identical
rows receives occurrence index 0 and the second 1; the code assigns 1 and
2. -/
theorem c3_counterexample :
    compute_dup_seq [kdup, kdup] = [1, 2] ∧
    ([1, 2] : List ℕ) ≠ [0, 1] :=
  ⟨by decide, by decide⟩

theorem goodRows_filter (env : LoaderEnv) (rows : List RawTxRow) :
    goodRows env (rows.filter (fun r2 => (env.parseDate r2.date).isSome)) =
      goodRows env rows := by
  induction rows with
  | nil => rfl
  | cons r t ih =>
    simp only [goodRows] at ih ⊢
    cases hp : env.parseDate r.date with
    | none => simp [List.filter_cons, hp, List.filterMap_cons, ih]
    | some d => simp [List.filter_cons, hp, List.filterMap_cons, ih]

/-- C7 (amended): a row with an unparsable date is silently dropped from
the batch (no error is raised, the rest of the file continues: the staged
batch equals that of the date-parsable rows alone); a row with a
non-numeric amount is *not* dropped — it stays in the batch with
`amount_cents = 0`. -/
theorem c7_row_errors (env : LoaderEnv) (rows : List RawTxRow)
    (r : RawTxRow) (d s : Str) :
    (processFile env rows =
      processFile env
        (rows.filter (fun r2 => (env.parseDate r2.date).isSome)))
    ∧ (r ∈ rows → env.parseDate r.date = some d →
       r.amount = AmtVal.txt s → env.pyFloat (cleanAmount s) = none →
       ∃ t ∈ processFile env rows,
         t.date = d ∧ t.account_id = r.account_id ∧ t.amount_cents = 0) := by
  constructor
  · rw [processFile, processFile, goodRows_filter]
  · intro hr hd ham hpf
    have hg : (d, r) ∈ goodRows env rows := by
      rw [goodRows, List.mem_filterMap]
      exact ⟨r, hr, by rw [hd]; rfl⟩
    obtain ⟨i, hi, hget⟩ := List.mem_iff_getElem.mp hg
    refine ⟨stageRow env ((goodRows env rows).map (stageKey env)) i (d, r),
      ?_, rfl, rfl, ?_⟩
    · rw [processFile]
      apply List.mem_map.mpr
      refine ⟨(i, (d, r)), ?_, rfl⟩
      have he : (goodRows env rows).enum[i]? = some (i, (d, r)) := by
        rw [List.getElem?_enum, List.getElem?_eq_getElem hi, hget]
        rfl
      exact List.getElem?_mem he
    · show to_int_cents env.pyFloat r.amount = 0
      rw [ham, to_int_cents, hpf]

/-- Witness for C7 (amended) at a concrete file: the row with amount
`abc` is staged with zero cents. -/
theorem c7_row_errors_witness :
    rowBadAmt ∈ [rowBadAmt] ∧
    envFix.parseDate rowBadAmt.date = some ("2024-03-01".toList) ∧
    rowBadAmt.amount = AmtVal.txt ("abc".toList) ∧
    envFix.pyFloat (cleanAmount ("abc".toList)) = none ∧
    (∃ t ∈ processFile envFix [rowBadAmt],
      t.date = "2024-03-01".toList ∧ t.account_id = rowBadAmt.account_id ∧
      t.amount_cents = 0) :=
  ⟨by decide, by decide, by decide, by decide,
    (c7_row_errors envFix [rowBadAmt] rowBadAmt ("2024-03-01".toList)
      ("abc".toList)).2 (by decide) (by decide) (by decide) (by decide)⟩

/-- C7 counterexample: the claim says a row with a non-numeric amount is
excluded from the resulting batch; here such a row is retained (batch
length 1, with `amount_cents = 0`). -/
theorem c7_counterexample :
    (processFile envFix [rowBadAmt]).length = 1 ∧ (1 : ℕ) ≠ 0 ∧
    ∃ t ∈ processFile envFix [rowBadAmt], t.amount_cents = 0 :=
  ⟨by decide, by decide, by decide⟩

/-- C8 (amended): a file missing a required column raises an uncaught
`ValueError` which ends the run: the files before it keep their merges
(each file is merged as soon as it is processed), and the files after it
are not processed at all. -/
theorem c8_missing_column (env : LoaderEnv) (st : Store)
    (pre : List SrcFile) (bad : SrcFile) (rest : List SrcFile)
    (hpre : ∀ f ∈ pre, missingRequired f.headers = false)
    (hbad : missingRequired bad.headers = true) :
    runFiles env st (pre ++ bad :: rest) =
      (pre.foldl (fun st2 f => mergeBatch st2 (processFile env f.rows)) st,
        true) := by
  induction pre generalizing st with
  | nil =>
    simp only [List.nil_append, List.foldl_nil, runFiles, hbad, if_pos]
  | cons f t ih =>
    have hf : missingRequired f.headers = false :=
      hpre f (List.mem_cons_self f t)
    simp only [List.cons_append, runFiles, hf, Bool.false_eq_true, if_false,
      List.foldl_cons]
    exact ih (mergeBatch st (processFile env f.rows))
      (fun f2 hf2 => hpre f2 (List.mem_cons_of_mem _ hf2))

/-- Witness for C8 (amended): a good file followed by a column-deficient
file; the good file's merge survives and the run reports the error. -/
theorem c8_missing_column_witness :
    (∀ f ∈ [goodFile], missingRequired f.headers = false) ∧
    missingRequired badFile.headers = true ∧
    runFiles envFix [] [goodFile, badFile] =
      ([goodFile].foldl
        (fun st2 f => mergeBatch st2 (processFile envFix f.rows)) [],
        true) :=
  ⟨by decide, by decide,
    c8_missing_column envFix [] [goodFile] badFile [] (by decide)
      (by decide)⟩

/-- C8 counterexample: the claim says the other files of the run proceed
when one file fails; here the failing file comes first and the following
(complete) file is never merged — the run ends with the store still
empty, although the same file alone would have contributed a row. -/
theorem c8_counterexample :
    runFiles envFix [] [badFile, goodFile] = ([], true) ∧
    (runFiles envFix [] [goodFile]).1.length = 1 :=
  ⟨by decide, by decide⟩

theorem cashJoined_append (dim : DimTable) (txs : List CashTx)
    (tx : CashTx) :
    cashJoined dim (txs ++ [tx]) =
      cashJoined dim txs ++ cashJoined dim [tx] := by
  rw [cashJoined, cashJoined, cashJoined, List.flatMap_append]

/-- C9 (amended): with the dimension table present, a transaction whose
category maps to `is_transfer = true` contributes nothing to that month's
income, spending and net-cashflow totals; a transaction whose category is
absent from the dimension is kept (treated as not a transfer) and
contributes its amount to the month's net total; with the dimension table
missing, the rollup query itself fails (it names `category_dim`
unconditionally), so no totals are produced at all. -/
theorem c9_transfer_exclusion (dim : DimTable) (txs : List CashTx)
    (tx : CashTx) (m : Str) :
    (dim.hasTransferCol = true →
     (∃ d2 ∈ dim.rows, d2.category = some tx.category) →
     (∀ d2 ∈ dim.rows, d2.category = some tx.category →
       d2.is_transfer = some true) →
     cashflowTotals (some dim) (txs ++ [tx]) m =
       cashflowTotals (some dim) txs m)
    ∧ ((∀ d2 ∈ dim.rows, d2.category ≠ some tx.category) →
       cashJoined dim (txs ++ [tx]) =
         cashJoined dim txs ++ [(monthOf tx.date, amtOf tx)] ∧
       netFor m (cashJoined dim (txs ++ [tx])) =
         netFor m (cashJoined dim txs) +
           (if monthOf tx.date = m then amtOf tx else 0))
    ∧ cashflowTotals none txs m = none := by
  refine ⟨?_, ?_, rfl⟩
  · intro hcol hex hall
    have hsingle : cashJoined dim [tx] = [] := by
      rw [cashJoined]
      simp only [List.flatMap_cons, List.flatMap_nil, List.append_nil]
      have hms : ¬(dim.rows.filter
          (fun d2 => decide (d2.category = some tx.category))).isEmpty = true := by
        rcases hex with ⟨d2, hd2, hc⟩
        have : d2 ∈ dim.rows.filter
            (fun d3 => decide (d3.category = some tx.category)) :=
          List.mem_filter.mpr ⟨hd2, by simp [hc]⟩
        intro hemp
        rw [List.isEmpty_iff] at hemp
        rw [hemp] at this
        exact absurd this (List.not_mem_nil d2)
      have hkept : ((dim.rows.filter
          (fun d2 => decide (d2.category = some tx.category))).map
            (fun d2 => d2.is_transfer)).filter
              (fun ib => !(ib.getD false)) = [] := by
        rw [List.filter_eq_nil_iff]
        intro ib hib
        rcases List.mem_map.mp hib with ⟨d2, hd2, hval⟩
        have hmem := List.mem_filter.mp hd2
        have := hall d2 hmem.1 (by simpa using hmem.2)
        rw [← hval, this]
        simp
      simp only [Bool.not_eq_true] at hms
      simp only [hms, Bool.false_eq_true, if_false, hcol, if_pos, hkept,
        List.map_nil]
    have hjoin : cashJoined dim (txs ++ [tx]) = cashJoined dim txs := by
      rw [cashJoined_append, hsingle, List.append_nil]
    simp only [cashflowTotals, Option.map]
    rw [hjoin]
  · intro hnone
    have hms : dim.rows.filter
        (fun d2 => decide (d2.category = some tx.category)) = [] := by
      rw [List.filter_eq_nil_iff]
      intro d2 hd2
      simp [hnone d2 hd2]
    have hsingle : cashJoined dim [tx] = [(monthOf tx.date, amtOf tx)] := by
      rw [cashJoined]
      simp only [List.flatMap_cons, List.flatMap_nil, List.append_nil, hms]
      cases dim.hasTransferCol <;> simp
    have hjoin : cashJoined dim (txs ++ [tx]) =
        cashJoined dim txs ++ [(monthOf tx.date, amtOf tx)] := by
      rw [cashJoined_append, hsingle]
    refine ⟨hjoin, ?_⟩
    rw [hjoin, netFor, netFor, List.filter_append, List.map_append,
      List.sum_append]
    by_cases hm : monthOf tx.date = m
    · simp [hm]
    · simp [hm]

/-- Witness for C9 (amended): a `Transfers` transaction leaves the totals
of its month unchanged. -/
theorem c9_transfer_exclusion_witness :
    dimTable1.hasTransferCol = true ∧
    (∃ d2 ∈ dimTable1.rows, d2.category = some txTransfer.category) ∧
    (∀ d2 ∈ dimTable1.rows, d2.category = some txTransfer.category →
      d2.is_transfer = some true) ∧
    cashflowTotals (some dimTable1) ([] ++ [txTransfer]) ("2024-03".toList) =
      cashflowTotals (some dimTable1) [] ("2024-03".toList) :=
  ⟨rfl, by decide, by decide,
    (c9_transfer_exclusion dimTable1 [] txTransfer ("2024-03".toList)).1
      rfl (by decide) (by decide)⟩

/-- C9 counterexample: with the dimension table missing the claim says the
transaction is included in the totals; the code's query fails instead, and
no totals exist. -/
theorem c9_counterexample :
    cashflowTotals none [txCash] ("2024-03".toList) = none ∧
    ∀ q : ℚ × ℚ × ℚ,
      cashflowTotals none [txCash] ("2024-03".toList) ≠ some q :=
  ⟨rfl, fun _ h => Option.noConfusion h⟩

theorem alnum_ne_space (c : Char) (h : isAlnumLower c = true) : c ≠ ' ' := by
  intro hc
  subst hc
  exact absurd h (by decide)

theorem lowerChar_fix (c : Char)
    (h : isAlnumLower c = true ∨ c = ' ') : lowerChar c = c := by
  rw [lowerChar, if_neg]
  simp only [Bool.and_eq_true, decide_eq_true_eq, not_and, not_le]
  intro h1
  rcases h with h | rfl
  · simp only [isAlnumLower, Bool.or_eq_true, Bool.and_eq_true,
      decide_eq_true_eq] at h
    omega
  · exact absurd h1 (by decide)

theorem subAux_chars (sp : Bool) (s : Str) :
    ∀ c ∈ subAux sp s, isAlnumLower c = true ∨ c = ' ' := by
  induction s generalizing sp with
  | nil => intro c hc; simp [subAux] at hc
  | cons d t ih =>
    intro c hc
    rw [subAux] at hc
    by_cases hd : isAlnumLower d = true
    · simp only [hd, if_pos] at hc
      rcases List.mem_cons.mp hc with rfl | hc2
      · exact Or.inl hd
      · exact ih false c hc2
    · rw [Bool.not_eq_true] at hd
      simp only [hd, Bool.false_eq_true, if_false] at hc
      cases sp with
      | true => exact ih true c (by simpa using hc)
      | false =>
        simp only [Bool.false_eq_true, if_false] at hc
        rcases List.mem_cons.mp hc with rfl | hc2
        · exact Or.inr rfl
        · exact ih true c hc2

theorem wordsAux_good (s : Str) :
    ∀ acc, (∀ c ∈ acc, isAlnumLower c = true) →
      (∀ c ∈ s, isAlnumLower c = true ∨ c = ' ') →
      ∀ w ∈ wordsAux s acc, w ≠ [] ∧ ∀ c ∈ w, isAlnumLower c = true := by
  induction s with
  | nil =>
    intro acc hacc _ w hw
    rw [wordsAux] at hw
    by_cases hne : acc = []
    · simp [hne] at hw
    · simp only [hne, Bool.false_eq_true, if_neg, if_false] at hw
      rcases List.mem_singleton.mp (by simpa [hne] using hw) with rfl
      refine ⟨by simpa using hne, ?_⟩
      intro c hc
      exact hacc c (List.mem_reverse.mp hc)
  | cons d t ih =>
    intro acc hacc hs w hw
    rw [wordsAux] at hw
    by_cases hd : d = ' '
    · simp only [hd, if_pos] at hw
      by_cases hne : acc = []
      · simp only [hne, if_pos] at hw
        exact ih [] (by simp) (fun c hc => hs c (List.mem_cons_of_mem _ hc))
          w hw
      · simp only [hne, if_neg, if_false] at hw
        rcases List.mem_cons.mp hw with rfl | hw2
        · refine ⟨by simpa using hne, ?_⟩
          intro c hc
          exact hacc c (List.mem_reverse.mp hc)
        · exact ih [] (by simp)
            (fun c hc => hs c (List.mem_cons_of_mem _ hc)) w hw2
    · simp only [hd, if_neg, if_false] at hw
      have hdal : isAlnumLower d = true := by
        rcases hs d (List.mem_cons_self d t) with h | h
        · exact h
        · exact absurd h hd
      refine ih (d :: acc) ?_
        (fun c hc => hs c (List.mem_cons_of_mem _ hc)) w hw
      intro c hc
      rcases List.mem_cons.mp hc with rfl | hc2
      · exact hdal
      · exact hacc c hc2

theorem wordsAux_push (w : Str) :
    ∀ (s acc : Str), (∀ c ∈ w, c ≠ ' ') →
      wordsAux (w ++ s) acc = wordsAux s (w.reverse ++ acc) := by
  induction w with
  | nil => intro s acc _; simp
  | cons c w2 ih =>
    intro s acc hw
    have hc : c ≠ ' ' := hw c (List.mem_cons_self c w2)
    rw [List.cons_append, wordsAux, if_neg hc]
    rw [ih s (c :: acc) (fun d hd => hw d (List.mem_cons_of_mem _ hd))]
    simp [List.append_assoc]

theorem words_joinSp (toks : List Str)
    (hgood : ∀ w ∈ toks, w ≠ [] ∧ ∀ c ∈ w, c ≠ ' ') :
    words (joinSp toks) = toks := by
  induction toks with
  | nil => rfl
  | cons w rest ih =>
    have hw := hgood w (List.mem_cons_self w rest)
    cases rest with
    | nil =>
      show words w = [w]
      rw [words, ← List.append_nil w, wordsAux_push w [] [] hw.2,
        List.append_nil, wordsAux]
      simp [hw.1]
    | cons r2 rs =>
      show words (w ++ ' ' :: joinSp (r2 :: rs)) = w :: r2 :: rs
      rw [words, wordsAux_push w _ [] hw.2, List.append_nil, wordsAux,
        if_pos rfl]
      have hrev : ¬w.reverse = [] := by simp [hw.1]
      rw [if_neg hrev, List.reverse_reverse]
      have := ih (fun w2 hw2 => hgood w2 (List.mem_cons_of_mem _ hw2))
      rw [words] at this
      rw [this]

theorem subAux_alnum_front (w : Str) :
    ∀ (t : Str) (sp : Bool), (∀ c ∈ w, isAlnumLower c = true) →
      subAux sp (w ++ t) = w ++ subAux (if w = [] then sp else false) t := by
  induction w with
  | nil => intro t sp _; simp
  | cons c w2 ih =>
    intro t sp hw
    have hc : isAlnumLower c = true := hw c (List.mem_cons_self c w2)
    rw [List.cons_append, subAux, if_pos hc,
      ih t false (fun d hd => hw d (List.mem_cons_of_mem _ hd))]
    cases w2 <;> simp

theorem subAux_fix_join (toks : List Str)
    (hgood : ∀ w ∈ toks, w ≠ [] ∧ ∀ c ∈ w, isAlnumLower c = true) :
    ∀ sp, subAux sp (joinSp toks) = joinSp toks := by
  induction toks with
  | nil => intro sp; rfl
  | cons w rest ih =>
    intro sp
    have hw := hgood w (List.mem_cons_self w rest)
    have hwne : ¬w = [] := hw.1
    cases rest with
    | nil =>
      show subAux sp w = w
      rw [← List.append_nil w, subAux_alnum_front w [] sp hw.2, if_neg hwne]
      rfl
    | cons r2 rs =>
      show subAux sp (w ++ ' ' :: joinSp (r2 :: rs)) = w ++ ' ' :: joinSp (r2 :: rs)
      rw [subAux_alnum_front w _ sp hw.2, if_neg hwne, subAux,
        if_neg (by decide), if_neg (by simp)]
      rw [ih (fun w2 hw2 => hgood w2 (List.mem_cons_of_mem _ hw2)) true]

theorem mem_joinSp (toks : List Str) :
    ∀ c ∈ joinSp toks, (∃ w ∈ toks, c ∈ w) ∨ c = ' ' := by
  induction toks with
  | nil => intro c hc; simp [joinSp] at hc
  | cons w rest ih =>
    intro c hc
    cases rest with
    | nil => exact Or.inl ⟨w, List.mem_cons_self w [], hc⟩
    | cons r2 rs =>
      rcases List.mem_append.mp hc with hc1 | hc2
      · exact Or.inl ⟨w, List.mem_cons_self w _, hc1⟩
      · rcases List.mem_cons.mp hc2 with rfl | hc3
        · exact Or.inr rfl
        · rcases ih c hc3 with ⟨w2, hw2, hcw⟩ | h
          · exact Or.inl ⟨w2, List.mem_cons_of_mem _ hw2, hcw⟩
          · exact Or.inr h

theorem lowerStr_fix (s : Str)
    (h : ∀ c ∈ s, isAlnumLower c = true ∨ c = ' ') : lowerStr s = s := by
  rw [lowerStr]
  have h2 := List.map_congr_left (fun c hc => lowerChar_fix c (h c hc))
  rw [h2]
  simp

theorem joinSp_ne_nil (toks : List Str) (hne : toks ≠ [])
    (hgood : ∀ w ∈ toks, w ≠ []) : joinSp toks ≠ [] := by
  cases toks with
  | nil => exact absurd rfl hne
  | cons w rest =>
    have hw := hgood w (List.mem_cons_self w rest)
    cases rest with
    | nil => exact hw
    | cons r2 rs =>
      show w ++ ' ' :: joinSp (r2 :: rs) ≠ []
      simp

theorem joinSp_head (toks : List Str)
    (hgood : ∀ w ∈ toks, w ≠ [] ∧ ∀ c ∈ w, isAlnumLower c = true) :
    joinSp toks = [] ∨
      ∃ c t, joinSp toks = c :: t ∧ isAlnumLower c = true := by
  cases toks with
  | nil => exact Or.inl rfl
  | cons w rest =>
    have hw := hgood w (List.mem_cons_self w rest)
    cases hwc : w with
    | nil => exact absurd hwc hw.1
    | cons c w2 =>
      have hc : isAlnumLower c = true := by
        apply hw.2
        rw [hwc]
        exact List.mem_cons_self c w2
      cases rest with
      | nil =>
        refine Or.inr ⟨c, w2, ?_, hc⟩
        simp [joinSp, hwc]
      | cons r2 rs =>
        exact Or.inr ⟨c, w2 ++ ' ' :: joinSp (r2 :: rs), rfl, hc⟩

theorem joinSp_reverse_head (toks : List Str)
    (hgood : ∀ w ∈ toks, w ≠ [] ∧ ∀ c ∈ w, isAlnumLower c = true) :
    (joinSp toks).reverse = [] ∨
      ∃ c t, (joinSp toks).reverse = c :: t ∧ isAlnumLower c = true := by
  induction toks with
  | nil => exact Or.inl rfl
  | cons w rest ih =>
    have hw := hgood w (List.mem_cons_self w rest)
    cases rest with
    | nil =>
      cases hwc : w.reverse with
      | nil => exact absurd (by simpa using hwc) hw.1
      | cons c t =>
        have hc : c ∈ w := by
          apply List.mem_reverse.mp
          rw [hwc]
          exact List.mem_cons_self c t
        exact Or.inr ⟨c, t, hwc, hw.2 c hc⟩
    | cons r2 rs =>
      have hrest := ih (fun w2 hw2 => hgood w2 (List.mem_cons_of_mem _ hw2))
      rcases hrest with hnil | ⟨c, t, hct, hc⟩
      · have : joinSp (r2 :: rs) = [] := by simpa using hnil
        exact absurd this (joinSp_ne_nil (r2 :: rs) (by simp)
          (fun w2 hw2 => (hgood w2 (List.mem_cons_of_mem _ hw2)).1))
      · refine Or.inr ⟨c, t ++ ' ' :: w.reverse, ?_, hc⟩
        show (w ++ ' ' :: joinSp (r2 :: rs)).reverse = _
        rw [List.reverse_append, List.reverse_cons, List.append_assoc, hct]
        simp

theorem dropWhile_eq_self_of_head (p : Char → Bool) (s : Str)
    (h : s = [] ∨ ∃ c t, s = c :: t ∧ p c = false) :
    s.dropWhile p = s := by
  rcases h with rfl | ⟨c, t, rfl, hc⟩
  · rfl
  · simp [List.dropWhile_cons, hc]

theorem stripSp_joinSp (toks : List Str)
    (hgood : ∀ w ∈ toks, w ≠ [] ∧ ∀ c ∈ w, isAlnumLower c = true) :
    stripSp (joinSp toks) = joinSp toks := by
  rw [stripSp]
  have h1 : (joinSp toks).dropWhile (fun c => c = ' ') = joinSp toks := by
    apply dropWhile_eq_self_of_head
    rcases joinSp_head toks hgood with h | ⟨c, t, hct, hc⟩
    · exact Or.inl h
    · exact Or.inr ⟨c, t, hct, by simp [alnum_ne_space c hc]⟩
  rw [h1]
  have h2 : (joinSp toks).reverse.dropWhile (fun c => c = ' ') =
      (joinSp toks).reverse := by
    apply dropWhile_eq_self_of_head
    rcases joinSp_reverse_head toks hgood with h | ⟨c, t, hct, hc⟩
    · exact Or.inl h
    · exact Or.inr ⟨c, t, hct, by simp [alnum_ne_space c hc]⟩
  rw [h2, List.reverse_reverse]

theorem normTokens_good (s : Str) :
    ∀ w ∈ normTokens s,
      w ≠ [] ∧ (∀ c ∈ w, isAlnumLower c = true) ∧ w ∉ STOPWORDS := by
  intro w hw
  rw [normTokens] at hw
  have hmem := List.mem_filter.mp hw
  have hword := wordsAux_good (subNonAlnum (lowerStr s)) [] (by simp)
    (subAux_chars false (lowerStr s)) w hmem.1
  exact ⟨hword.1, hword.2, by simpa using hmem.2⟩

theorem normalize_merchant_eq_joinSp (s : Str) :
    normalize_merchant s = joinSp (normTokens s) := by
  rw [normalize_merchant]
  exact stripSp_joinSp (normTokens s)
    (fun w hw => ⟨(normTokens_good s w hw).1, (normTokens_good s w hw).2.1⟩)

/-- C10: merchant normalization is total (any non-string maps to the empty
string), its output is a join of nonempty lowercase-alphanumeric
non-stopword tokens separated by single spaces with no leading or trailing
whitespace, and it is idempotent
(`normalize_merchant (normalize_merchant s) = normalize_merchant s`). -/
theorem c10_normalize_merchant (s : Str) :
    normalize_merchant_py PyStrVal.nonstr = [] ∧
    (∃ toks : List Str,
      normalize_merchant s = joinSp toks ∧
      ∀ w ∈ toks,
        w ≠ [] ∧ (∀ c ∈ w, isAlnumLower c = true) ∧ w ∉ STOPWORDS) ∧
    normalize_merchant (normalize_merchant s) = normalize_merchant s := by
  refine ⟨rfl,
    ⟨normTokens s, normalize_merchant_eq_joinSp s, normTokens_good s⟩, ?_⟩
  rw [normalize_merchant_eq_joinSp s]
  have hgood := normTokens_good s
  have hgood2 : ∀ w ∈ normTokens s,
      w ≠ [] ∧ ∀ c ∈ w, isAlnumLower c = true :=
    fun w hw => ⟨(hgood w hw).1, (hgood w hw).2.1⟩
  have h1 : lowerStr (joinSp (normTokens s)) = joinSp (normTokens s) := by
    apply lowerStr_fix
    intro c hc
    rcases mem_joinSp (normTokens s) c hc with ⟨w, hw, hcw⟩ | h
    · exact Or.inl ((hgood2 w hw).2 c hcw)
    · exact Or.inr h
  have h2 : subNonAlnum (joinSp (normTokens s)) = joinSp (normTokens s) := by
    rw [subNonAlnum]
    exact subAux_fix_join (normTokens s) hgood2 false
  have h3 : words (joinSp (normTokens s)) = normTokens s :=
    words_joinSp (normTokens s)
      (fun w hw => ⟨(hgood2 w hw).1,
        fun c hc => alnum_ne_space c ((hgood2 w hw).2 c hc)⟩)
  have h4 : (normTokens s).filter (fun w => decide (w ∉ STOPWORDS)) =
      normTokens s := by
    rw [List.filter_eq_self]
    intro w hw
    simpa using (hgood w hw).2.2
  have h5 : normTokens (joinSp (normTokens s)) = normTokens s := by
    rw [normTokens, h1, h2, h3, h4]
  rw [normalize_merchant, h5]
  exact stripSp_joinSp (normTokens s) hgood2

end FinDash
